import Mathlib

/-!
Verification of the filtering/classification core of `clam_juice.py`, a
ClamAV signature-database filter.  Strings are embedded as `List Char`
(Python text), files as lists of lines (`List (List Char)`), and each
Python function of the filtering core is translated into an executable
Lean definition carrying the same name.
-/

namespace ClamJuice

/-- Whitespace predicate of Python `str.strip` (ASCII range). -/
def isSp (c : Char) : Bool :=
  c == ' ' || c == '\t' || c == '\n' || c == '\r' || c == '\x0b' || c == '\x0c'

/-- Python `s.strip()`: remove leading and trailing whitespace. -/
def strip (l : List Char) : List Char :=
  ((l.dropWhile isSp).reverse.dropWhile isSp).reverse

/-- Python `s.lower()` (ASCII case fold, as used on signature names). -/
def lowerL (l : List Char) : List Char := l.map Char.toLower

/-- Python `s.upper()`. -/
def upperL (l : List Char) : List Char := l.map Char.toUpper

/-- Does `nd` occur at the head of `hay`? (helper for substring search). -/
def leads : List Char → List Char → Bool
  | [], _ => true
  | _ :: _, [] => false
  | a :: as, b :: bs => a == b && leads as bs

/-- Python `nd in hay`: substring containment. -/
def hasSub (nd : List Char) : List Char → Bool
  | [] => leads nd []
  | c :: cs => leads nd (c :: cs) || hasSub nd cs

/-- Python `s.split(sep)` with a one-character separator, unlimited splits. -/
def splitAll (sep : Char) : List Char → List (List Char)
  | [] => [[]]
  | c :: cs =>
    match splitAll sep cs with
    | [] => [[c]]
    | h :: t => if c == sep then [] :: h :: t else (c :: h) :: t

/-- Python `s.split(sep, maxsplit)`: at most `n` splits. -/
def splitN (sep : Char) : Nat → List Char → List (List Char)
  | _, [] => [[]]
  | 0, c :: cs => [c :: cs]
  | n + 1, c :: cs =>
    if c == sep then
      [] :: splitN sep n cs
    else
      match splitN sep (n + 1) cs with
      | [] => [[c]]
      | h :: t => (c :: h) :: t

/-- Python `line.startswith("#")`. -/
def startsHash : List Char → Bool
  | '#' :: _ => true
  | _ => false

/-- The test-signature marker searched for case-insensitively. -/
def eicarChars : List Char := "eicar".toList

/-- The second (redundant) test-signature marker of the source. -/
def testEicarChars : List Char := "test.eicar".toList

/-- Translation of `ComprehensiveFilter.should_keep_signature`
(src/clam_juice.py lines 130-148): decide whether a signature is kept,
given its name and the exclude/include platform lists. -/
def should_keep_signature (name : List Char)
    (exclude_platforms include_platforms : List (List Char)) : Bool :=
  if !name.isEmpty &&
      (hasSub eicarChars (lowerL name) || hasSub testEicarChars (lowerL name)) then
    true
  else if name.isEmpty || !(name.contains '.') then
    include_platforms.isEmpty
  else
    let pfx := (splitAll '.' name).headD []
    if !include_platforms.isEmpty then
      include_platforms.contains pfx
    else if !exclude_platforms.isEmpty then
      !(exclude_platforms.contains pfx)
    else
      true

/-- Type-code check of `filter_ndb` (line 178):
`ndb_types is None or sig_type in ndb_types`. -/
def typeOk : Option (List (List Char)) → List Char → Bool
  | none, _ => true
  | some ts, t => ts.contains t

/-- Keep decision of `filter_ndb` (lines 168-186) on one stripped,
non-comment, non-blank line: split on ':' capped at 4 fields; a
well-formed line needs platform and type approval, a malformed one is
kept. -/
def keepNdb (exclude_platforms include_platforms : List (List Char))
    (ndb_types : Option (List (List Char))) (line : List Char) : Bool :=
  let parts := splitN ':' 3 line
  if parts.length ≥ 4 then
    let name := parts.getD 0 []
    let sig_type := parts.getD 1 []
    should_keep_signature name exclude_platforms include_platforms &&
      typeOk ndb_types sig_type
  else
    true

/-- Keep decision of `filter_hdb` (lines 214-225): `hash:size:name`
layout, name is field 2; malformed lines are kept. -/
def keepHdb (exclude_platforms include_platforms : List (List Char))
    (line : List Char) : Bool :=
  let parts := splitAll ':' line
  if parts.length ≥ 3 then
    should_keep_signature (parts.getD 2 []) exclude_platforms include_platforms
  else
    true

/-- Keep decision of `filter_hsb` (lines 253-266): same layout as the
hash database. -/
def keepHsb (exclude_platforms include_platforms : List (List Char))
    (line : List Char) : Bool :=
  let parts := splitAll ':' line
  if parts.length ≥ 3 then
    should_keep_signature (parts.getD 2 []) exclude_platforms include_platforms
  else
    true

/-- Keep decision of `filter_ldb` (lines 321-332): split on the first
';' only, name is field 0. -/
def keepLdb (exclude_platforms include_platforms : List (List Char))
    (line : List Char) : Bool :=
  let parts := splitN ';' 1 line
  if parts.length ≥ 1 then
    should_keep_signature (parts.getD 0 []) exclude_platforms include_platforms
  else
    true

/-- Result of rewriting one file: the lines written back, and the
increments added to the format's `original` and `filtered` counters. -/
structure FilterOut where
  out : List (List Char)
  orig : Nat
  kept : Nat
deriving DecidableEq, Repr

/-- The loop shared by `filter_ndb` / `filter_hdb` / `filter_hsb` /
`filter_ldb` (e.g. lines 206-229): strip each line; pass blank and
'#'-comment lines through uncounted; otherwise count the record and
write it back iff the format's keep decision approves it. -/
def runFilter (keep : List Char → Bool) : List (List Char) → FilterOut
  | [] => ⟨[], 0, 0⟩
  | raw :: rest =>
    let r := runFilter keep rest
    let line := strip raw
    if line.isEmpty || startsHash line then
      ⟨line :: r.out, r.orig, r.kept⟩
    else if keep line then
      ⟨line :: r.out, r.orig + 1, r.kept + 1⟩
    else
      ⟨r.out, r.orig + 1, r.kept⟩

/-- `ComprehensiveFilter.filter_ndb` on a file's lines. -/
def filter_ndb (exclude_platforms include_platforms : List (List Char))
    (ndb_types : Option (List (List Char))) (file : List (List Char)) : FilterOut :=
  runFilter (keepNdb exclude_platforms include_platforms ndb_types) file

/-- `ComprehensiveFilter.filter_hdb` on a file's lines. -/
def filter_hdb (exclude_platforms include_platforms : List (List Char))
    (file : List (List Char)) : FilterOut :=
  runFilter (keepHdb exclude_platforms include_platforms) file

/-- `ComprehensiveFilter.filter_hsb` on a file's lines. -/
def filter_hsb (exclude_platforms include_platforms : List (List Char))
    (file : List (List Char)) : FilterOut :=
  runFilter (keepHsb exclude_platforms include_platforms) file

/-- `ComprehensiveFilter.filter_ldb` on a file's lines. -/
def filter_ldb (exclude_platforms include_platforms : List (List Char))
    (file : List (List Char)) : FilterOut :=
  runFilter (keepLdb exclude_platforms include_platforms) file

/-- The raw-line count used by the mdb fast path (lines 286-288) and by
`exclude_file_type` (lines 350-353):
`sum(1 for line in f if line.strip() and not line.startswith("#"))`.
Note the comment test is on the raw, unstripped line. -/
def countRaw : List (List Char) → Nat
  | [] => 0
  | raw :: rest =>
    (if !(strip raw).isEmpty && !startsHash raw then 1 else 0) + countRaw rest

/-- The single comment the mdb fast path writes (line 291). -/
def mdbComment : List Char := "# MDB signatures filtered (100% Windows PE)".toList

/-- The fixed platform token of the mdb fast path (line 284). -/
def winChars : List Char := "Win".toList

/-- `ComprehensiveFilter.filter_mdb` (lines 276-300): if "Win" is
excluded, empty the whole file without per-line inspection; otherwise
filter like a hash database. -/
def filter_mdb (exclude_platforms include_platforms : List (List Char))
    (file : List (List Char)) : FilterOut :=
  if exclude_platforms.contains winChars then
    ⟨[mdbComment], countRaw file, 0⟩
  else
    filter_hdb exclude_platforms include_platforms file

/-- `ComprehensiveFilter.exclude_file_type` (lines 342-360) on a file's
lines, given the extension taken from the file name: replace the content
with one explanatory comment, count prior records as `original`, add
nothing to `filtered`. -/
def exclude_file_type (ext : List Char) (file : List (List Char)) : FilterOut :=
  ⟨["# ".toList ++ upperL ext ++ " signatures excluded entirely".toList],
    countRaw file, 0⟩

/-- What `filter_database` (lines 383-413) does with one unpacked file,
keyed by its extension. -/
inductive FileAction where
  | runNdb
  | runHdb
  | runHsb
  | runMdb
  | runLdb
  | wholeExclude
  | untouched
deriving DecidableEq, Repr

/-- The dispatch of `filter_database` (lines 383-413): every `*.ndb` and
`*.hdb` file goes to its per-line filter; `*.hsb`, `*.mdb` and `*.ldb`
files go to `exclude_file_type` when their format is in the exclude set,
else to their per-line filter; any other extension is excluded when
named in the exclude set and left untouched otherwise. -/
def dispatch (exclude_file_types : List (List Char)) (ext : List Char) : FileAction :=
  if ext = "ndb".toList then .runNdb
  else if ext = "hdb".toList then .runHdb
  else if ext = "hsb".toList then
    (if exclude_file_types.contains "hsb".toList then .wholeExclude else .runHsb)
  else if ext = "mdb".toList then
    (if exclude_file_types.contains "mdb".toList then .wholeExclude else .runMdb)
  else if ext = "ldb".toList then
    (if exclude_file_types.contains "ldb".toList then .wholeExclude else .runLdb)
  else if exclude_file_types.contains ext then .wholeExclude
  else .untouched

/-- One entry of `ComprehensiveFilter.PROFILES` (lines 38-97). -/
structure ProfileSpec where
  exclude_platforms : List (List Char)
  exclude_types : List (List Char)
  ndb_types : Option (List (List Char))
deriving DecidableEq, Repr

/-- The fixed profile registry `ComprehensiveFilter.PROFILES`
(descriptions omitted: they feed only the help output). -/
def PROFILES : List (List Char × ProfileSpec) :=
  [("linux-only".toList,
    ⟨["Win".toList, "Osx".toList, "Doc".toList, "Xls".toList, "Ppt".toList,
      "Rtf".toList],
     ["mdb".toList],
     some ["0".toList, "5".toList, "6".toList, "7".toList, "10".toList,
       "12".toList]⟩),
   ("embedded".toList,
    ⟨["Win".toList, "Osx".toList, "Doc".toList, "Xls".toList, "Ppt".toList,
      "Html".toList, "Swf".toList, "Java".toList],
     ["mdb".toList, "hsb".toList, "ldb".toList],
     some ["0".toList, "6".toList]⟩),
   ("mail-server".toList,
    ⟨["Osx".toList, "Dos".toList, "Andr".toList],
     [],
     some ["0".toList, "1".toList, "2".toList, "3".toList, "4".toList,
       "5".toList, "6".toList, "7".toList, "10".toList, "12".toList]⟩),
   ("web-server".toList,
    ⟨["Win".toList, "Osx".toList, "Dos".toList],
     ["mdb".toList],
     some ["0".toList, "3".toList, "5".toList, "7".toList, "10".toList,
       "12".toList]⟩)]

/-- Command-line arguments relevant to policy resolution in `main`
(lines 583-622).  `profile` is the registry entry already looked up:
argparse `choices` guarantees a supplied name is a key of `PROFILES`.
String-valued flags are `none` when absent. -/
structure Args where
  profile : Option ProfileSpec
  exclude_platforms : Option (List Char)
  include_platforms : Option (List Char)
  ndb_types : Option (List Char)
  exclude_types : Option (List Char)
deriving DecidableEq, Repr

/-- Python truthiness of an optional string (`None` and `""` are falsy). -/
def truthyStr : Option (List Char) → Bool
  | none => false
  | some s => !s.isEmpty

/-- Python truthiness of an optional list (`None` and `[]` are falsy). -/
def truthyList : Option (List (List Char)) → Bool
  | none => false
  | some l => !l.isEmpty

/-- Python `[p.strip() for p in s.split(",")]` (lines 609, 612, 618). -/
def parseCommaList (s : List Char) : List (List Char) :=
  (splitAll ',' s).map strip

/-- The exclude-platform list after profile defaults and the
command-line override (lines 588-609). -/
def resolvedEp (a : Args) : Option (List (List Char)) :=
  if truthyStr a.exclude_platforms then
    some (parseCommaList (a.exclude_platforms.getD []))
  else
    a.profile.map (·.exclude_platforms)

/-- The include-platform list after resolution (lines 583, 611-612):
only the command-line flag can set it, no profile carries one. -/
def resolvedIp (a : Args) : Option (List (List Char)) :=
  if truthyStr a.include_platforms then
    some (parseCommaList (a.include_platforms.getD []))
  else
    none

/-- The effective policy `main` hands to `filter_database`. -/
structure RunConfig where
  exclude_platforms : Option (List (List Char))
  include_platforms : Option (List (List Char))
  ndb_types : Option (List (List Char))
  exclude_types : Option (List (List Char))
deriving DecidableEq, Repr

/-- Policy resolution and validation of `main` (lines 583-622): an error
when neither a profile nor any override is supplied, and an error when
both platform lists resolve to non-empty; otherwise the resolved
configuration. -/
def resolveArgs (a : Args) : Except (List Char) RunConfig :=
  if a.profile.isNone && !truthyStr a.exclude_platforms &&
      !truthyStr a.include_platforms && !truthyStr a.exclude_types then
    .error ("Error: Must specify --profile, --exclude-platforms, " ++
      "--include-platforms, or --exclude-types").toList
  else
    let ep := resolvedEp a
    let ip := resolvedIp a
    let nt := if truthyStr a.ndb_types then
        some (parseCommaList (a.ndb_types.getD []))
      else a.profile.bind (·.ndb_types)
    let et := if truthyStr a.exclude_types then
        some (parseCommaList (a.exclude_types.getD []))
      else a.profile.map (·.exclude_types)
    if truthyList ep && truthyList ip then
      .error "Error: Cannot specify both --exclude-platforms and --include-platforms".toList
    else
      .ok ⟨ep, ip, nt, et⟩

/-- One unpacked file: its extension and its lines. -/
abbrev NamedFile := List Char × List (List Char)

/-- New content of one unpacked file under `filter_database` (lines
373-375 convert absent lists to empty sets before filtering). -/
def applyAction (cfg : RunConfig) (f : NamedFile) : List (List Char) :=
  let ep := cfg.exclude_platforms.getD []
  let ip := cfg.include_platforms.getD []
  match dispatch (cfg.exclude_types.getD []) f.1 with
  | .runNdb => (filter_ndb ep ip cfg.ndb_types f.2).out
  | .runHdb => (filter_hdb ep ip f.2).out
  | .runHsb => (filter_hsb ep ip f.2).out
  | .runMdb => (filter_mdb ep ip f.2).out
  | .runLdb => (filter_ldb ep ip f.2).out
  | .wholeExclude => (exclude_file_type f.1 f.2).out
  | .untouched => f.2

/-- The file-rewriting pass of `filter_database` over the unpacked set. -/
def processFiles (cfg : RunConfig) (files : List NamedFile) : List NamedFile :=
  files.map (fun f => (f.1, applyAction cfg f))

/-- `main` in one step: resolve the arguments; on a configuration error
exit with code 1 leaving every file untouched, otherwise run the
filtering pass and exit 0. -/
def mainModel (a : Args) (files : List NamedFile) : Nat × List NamedFile :=
  match resolveArgs a with
  | .error _ => (1, files)
  | .ok cfg => (0, processFiles cfg files)

/-! Helper lemmas about the string primitives. -/

lemma strip_as_rdrop (l : List Char) :
    strip l = List.rdropWhile isSp (l.dropWhile isSp) := rfl

lemma dropWhile_rdropWhile_dropWhile (p : Char → Bool) (y : List Char) :
    List.dropWhile p (List.rdropWhile p (List.dropWhile p y)) =
      List.rdropWhile p (List.dropWhile p y) := by
  cases hc : List.dropWhile p y with
  | nil => simp [List.rdropWhile]
  | cons a ys =>
    have hne : List.dropWhile p y ≠ [] := by rw [hc]; simp
    have ha := List.head_dropWhile_not p y hne
    simp only [hc, List.head_cons] at ha
    rw [List.rdropWhile, List.reverse_cons, List.dropWhile_append]
    by_cases he : (List.dropWhile p ys.reverse).isEmpty
    · simp [he, List.dropWhile_cons, ha]
    · simp [he, List.dropWhile_cons, ha]

lemma strip_strip (l : List Char) : strip (strip l) = strip l := by
  rw [strip_as_rdrop l, strip_as_rdrop]
  rw [dropWhile_rdropWhile_dropWhile]
  exact List.rdropWhile_idempotent _ _

lemma mem_strip {a : Char} {l : List Char} (h : a ∈ strip l) : a ∈ l := by
  rw [strip_as_rdrop, List.rdropWhile] at h
  rw [List.mem_reverse] at h
  have h2 := (List.dropWhile_suffix (l := (List.dropWhile isSp l).reverse) isSp).subset h
  rw [List.mem_reverse] at h2
  exact (List.dropWhile_suffix isSp).subset h2

lemma contains_strip_false {c : Char} {l : List Char}
    (h : l.contains c = false) : (strip l).contains c = false := by
  cases hc : (strip l).contains c with
  | false => rfl
  | true =>
    have h1 : c ∈ strip l := by
      have := hc
      simp only [List.contains] at this
      exact List.elem_iff.mp this
    have h3 : l.contains c = true := by
      simp only [List.contains]
      exact List.elem_iff.mpr (mem_strip h1)
    rw [h] at h3
    exact absurd h3 (by simp)

lemma leads_append_hasSub {xs ys s : List Char}
    (h : leads (xs ++ ys) s = true) : hasSub ys s = true := by
  induction xs generalizing s with
  | nil =>
    cases s with
    | nil => simpa [hasSub] using h
    | cons c cs => simp only [hasSub, Bool.or_eq_true]; exact Or.inl (by simpa using h)
  | cons a xs ih =>
    cases s with
    | nil => simp [leads] at h
    | cons b bs =>
      simp only [List.cons_append, leads, Bool.and_eq_true] at h
      have h2 := ih h.2
      have hstep : hasSub ys (b :: bs) = (leads ys (b :: bs) || hasSub ys bs) := rfl
      rw [hstep, Bool.or_eq_true]
      exact Or.inr h2

lemma hasSub_of_testEicar {s : List Char}
    (h : hasSub testEicarChars s = true) : hasSub eicarChars s = true := by
  have hsplit : testEicarChars = "test.".toList ++ eicarChars := by decide
  induction s with
  | nil => simp [hasSub, testEicarChars, leads] at h
  | cons c cs ih =>
    have hstep : hasSub testEicarChars (c :: cs) =
        (leads testEicarChars (c :: cs) || hasSub testEicarChars cs) := rfl
    rw [hstep, Bool.or_eq_true] at h
    cases h with
    | inl hld => exact leads_append_hasSub (hsplit ▸ hld)
    | inr hrec =>
      have h2 := ih hrec
      have hstep2 : hasSub eicarChars (c :: cs) =
          (leads eicarChars (c :: cs) || hasSub eicarChars cs) := rfl
      rw [hstep2, Bool.or_eq_true]
      exact Or.inr h2

lemma hasSub_eicar_ne_nil {name : List Char}
    (h : hasSub eicarChars (lowerL name) = true) : name.isEmpty = false := by
  cases name with
  | nil => simp [lowerL, hasSub, eicarChars, leads] at h
  | cons a as => rfl

lemma splitAll_ne_nil (sep : Char) (l : List Char) : splitAll sep l ≠ [] := by
  cases l with
  | nil => simp [splitAll]
  | cons c cs =>
    simp only [splitAll]
    cases splitAll sep cs with
    | nil => simp
    | cons h t => by_cases hs : c == sep <;> simp [hs]

lemma splitAll_headD (sep : Char) (l : List Char) :
    (splitAll sep l).headD [] = l.takeWhile (fun c => !(c == sep)) := by
  induction l with
  | nil => rfl
  | cons c cs ih =>
    simp only [splitAll]
    cases hc : splitAll sep cs with
    | nil => exact absurd hc (splitAll_ne_nil sep cs)
    | cons h t =>
      by_cases hs : c == sep
      · simp [hs, List.takeWhile_cons]
      · rw [hc] at ih
        simp only [List.headD_cons] at ih
        simp [hs, List.takeWhile_cons, ih]

lemma splitN_ne_nil (sep : Char) (n : Nat) (l : List Char) : splitN sep n l ≠ [] := by
  cases n with
  | zero => cases l <;> simp [splitN]
  | succ m =>
    cases l with
    | nil => simp [splitN]
    | cons c cs =>
      simp only [splitN]
      cases splitN sep (m + 1) cs with
      | nil => by_cases hs : c == sep <;> simp [hs]
      | cons h t => by_cases hs : c == sep <;> simp [hs]

/-! Structural lemmas about the shared per-line filtering loop. -/

lemma bor_split {a b : Bool} (h : (a || b) = true) : a = true ∨ b = true := by
  cases a <;> cases b <;> simp_all

lemma bor_intro {a b : Bool} (h : a = true ∨ b = true) : (a || b) = true := by
  cases a <;> cases b <;> simp_all

lemma runFilter_cons_pass (keep : List Char → Bool) (raw : List Char)
    (rest : List (List Char))
    (h : ((strip raw).isEmpty || startsHash (strip raw)) = true) :
    runFilter keep (raw :: rest) =
      ⟨strip raw :: (runFilter keep rest).out,
       (runFilter keep rest).orig, (runFilter keep rest).kept⟩ := by
  simp [runFilter, h]

lemma runFilter_cons_keep (keep : List Char → Bool) (raw : List Char)
    (rest : List (List Char))
    (h : ((strip raw).isEmpty || startsHash (strip raw)) = false)
    (hk : keep (strip raw) = true) :
    runFilter keep (raw :: rest) =
      ⟨strip raw :: (runFilter keep rest).out,
       (runFilter keep rest).orig + 1, (runFilter keep rest).kept + 1⟩ := by
  simp [runFilter, h, hk]

lemma runFilter_cons_drop (keep : List Char → Bool) (raw : List Char)
    (rest : List (List Char))
    (h : ((strip raw).isEmpty || startsHash (strip raw)) = false)
    (hk : keep (strip raw) = false) :
    runFilter keep (raw :: rest) =
      ⟨(runFilter keep rest).out,
       (runFilter keep rest).orig + 1, (runFilter keep rest).kept⟩ := by
  simp [runFilter, h, hk]

lemma runFilter_out_spec (keep : List Char → Bool) :
    ∀ file : List (List Char), ∀ o ∈ (runFilter keep file).out,
      strip o = o ∧ (o.isEmpty || startsHash o || keep o) = true := by
  intro file
  induction file with
  | nil => intro o ho; simp [runFilter] at ho
  | cons raw rest ih =>
    intro o ho
    by_cases hb : ((strip raw).isEmpty || startsHash (strip raw)) = true
    · rw [runFilter_cons_pass keep raw rest hb] at ho
      rcases List.mem_cons.mp ho with rfl | hmem
      · refine ⟨strip_strip raw, ?_⟩
        rcases bor_split hb with h1 | h1 <;> simp [h1]
      · exact ih o hmem
    · rw [Bool.not_eq_true] at hb
      cases hk : keep (strip raw) with
      | true =>
        rw [runFilter_cons_keep keep raw rest hb hk] at ho
        rcases List.mem_cons.mp ho with rfl | hmem
        · exact ⟨strip_strip raw, by simp [hk]⟩
        · exact ih o hmem
      | false =>
        rw [runFilter_cons_drop keep raw rest hb hk] at ho
        exact ih o ho

lemma runFilter_fixed (keep : List Char → Bool) :
    ∀ ls : List (List Char),
      (∀ o ∈ ls, strip o = o ∧ (o.isEmpty || startsHash o || keep o) = true) →
      (runFilter keep ls).out = ls := by
  intro ls
  induction ls with
  | nil => intro _; rfl
  | cons o rest ih =>
    intro h
    obtain ⟨hs, hor⟩ := h o (List.mem_cons_self o rest)
    have hrest := fun x hx => h x (List.mem_cons_of_mem o hx)
    by_cases hb : (o.isEmpty || startsHash o) = true
    · rw [runFilter_cons_pass keep o rest (by rw [hs]; exact hb), hs, ih hrest]
    · rw [Bool.not_eq_true] at hb
      have hb1 : o.isEmpty = false := by
        cases hx : o.isEmpty with
        | false => rfl
        | true => exact absurd (@bor_intro o.isEmpty (startsHash o) (Or.inl hx)) (by simp [hb])
      have hb2 : startsHash o = false := by
        cases hx : startsHash o with
        | false => rfl
        | true => exact absurd (@bor_intro o.isEmpty (startsHash o) (Or.inr hx)) (by simp [hb])
      have hk : keep o = true := by
        rw [hb1, hb2] at hor
        simpa using hor
      rw [runFilter_cons_keep keep o rest (by rw [hs]; exact hb) (by rw [hs]; exact hk),
        hs, ih hrest]

lemma runFilter_idem (keep : List Char → Bool) (file : List (List Char)) :
    (runFilter keep ((runFilter keep file).out)).out = (runFilter keep file).out :=
  runFilter_fixed keep _ (runFilter_out_spec keep file)

/-! Writing the rewritten lines back to disk and reading them again
(`f.write(line + "\n")`, line 188-190, and Python text-file iteration). -/

/-- Bytes written back: every line followed by a newline. -/
def writeLines : List (List Char) → List Char
  | [] => []
  | l :: ls => l ++ '\n' :: writeLines ls

/-- Python text-file line iteration (terminators removed, no trailing
empty line for content ending in a newline). -/
def readLines : List Char → List (List Char)
  | [] => []
  | c :: cs =>
    if c = '\n' then [] :: readLines cs
    else
      match readLines cs with
      | [] => [[c]]
      | h :: t => (c :: h) :: t

lemma readLines_line_append (l w : List Char) (h : l.contains '\n' = false) :
    readLines (l ++ '\n' :: w) = l :: readLines w := by
  induction l with
  | nil => simp [readLines]
  | cons c l₂ ih =>
    have hc : (c = '\n') = False := by
      simp only [List.contains_cons, Bool.or_eq_false_iff] at h
      simp only [eq_iff_iff, iff_false]
      intro hcc
      exact absurd h.1 (by simp [hcc])
    have h2 : l₂.contains '\n' = false := by
      simp only [List.contains_cons, Bool.or_eq_false_iff] at h
      exact h.2
    simp only [List.cons_append, readLines, hc, if_false, List.append_eq, ih h2]

lemma readLines_writeLines (ls : List (List Char))
    (h : ∀ l ∈ ls, l.contains '\n' = false) :
    readLines (writeLines ls) = ls := by
  induction ls with
  | nil => rfl
  | cons l rest ih =>
    rw [writeLines, readLines_line_append l _ (h l (List.mem_cons_self l rest)),
      ih (fun x hx => h x (List.mem_cons_of_mem l hx))]

lemma runFilter_out_no_newline (keep : List Char → Bool)
    (file : List (List Char)) (h : ∀ l ∈ file, l.contains '\n' = false) :
    ∀ o ∈ (runFilter keep file).out, o.contains '\n' = false := by
  induction file with
  | nil => intro o ho; simp [runFilter] at ho
  | cons raw rest ih =>
    intro o ho
    have hraw : (strip raw).contains '\n' = false :=
      contains_strip_false (h raw (List.mem_cons_self raw rest))
    have hrest := fun x hx => h x (List.mem_cons_of_mem raw hx)
    by_cases hb : ((strip raw).isEmpty || startsHash (strip raw)) = true
    · rw [runFilter_cons_pass keep raw rest hb] at ho
      rcases List.mem_cons.mp ho with rfl | hmem
      · exact hraw
      · exact ih hrest o hmem
    · rw [Bool.not_eq_true] at hb
      cases hk : keep (strip raw) with
      | true =>
        rw [runFilter_cons_keep keep raw rest hb hk] at ho
        rcases List.mem_cons.mp ho with rfl | hmem
        · exact hraw
        · exact ih hrest o hmem
      | false =>
        rw [runFilter_cons_drop keep raw rest hb hk] at ho
        exact ih hrest o ho

/-! Claim C1: the classifier against the decision procedure stated by the
specification (which omits the test-marker override). -/

/-- The decision procedure exactly as the specification's classifier
contract states it, without the test-marker override: no separator means
keep iff the include-list is empty; with a separator, the text before
the first '.' is matched by exact equality against the include-list,
else the exclude-list, else kept. -/
def claimShouldKeep (name : List Char) (ex incl : List (List Char)) : Bool :=
  if name.isEmpty || !(name.contains '.') then incl.isEmpty
  else
    let pfx := name.takeWhile (fun c => !(c == '.'))
    if !incl.isEmpty then incl.contains pfx
    else if !ex.isEmpty then !(ex.contains pfx)
    else true

lemma splitAll_head_getD (sep : Char) (l : List Char) :
    (splitAll sep l).head?.getD [] = l.takeWhile (fun c => !(c == sep)) := by
  have h := splitAll_headD sep l
  cases hc : splitAll sep l with
  | nil => exact absurd hc (splitAll_ne_nil sep l)
  | cons a t => rw [hc] at h; simpa using h

lemma should_keep_eicar (name : List Char) (ex incl : List (List Char))
    (h : hasSub eicarChars (lowerL name) = true) :
    should_keep_signature name ex incl = true := by
  have hne := hasSub_eicar_ne_nil h
  simp [should_keep_signature, hne, h]

/-- C1 (amended): for every name in which the test marker does not occur
case-insensitively, `should_keep_signature` implements exactly the
claimed decision procedure: empty or separator-free names are kept iff
the include-list is empty; otherwise the prefix before the first '.' is
matched by exact token equality against a non-empty include-list, else a
non-empty exclude-list, else the record is kept. -/
theorem C1_theorem (name : List Char) (ex incl : List (List Char))
    (h : hasSub eicarChars (lowerL name) = false) :
    should_keep_signature name ex incl = claimShouldKeep name ex incl := by
  have h2 : hasSub testEicarChars (lowerL name) = false := by
    cases hc : hasSub testEicarChars (lowerL name) with
    | false => rfl
    | true => rw [hasSub_of_testEicar hc] at h; exact absurd h (by simp)
  simp [should_keep_signature, claimShouldKeep, h, h2, splitAll_head_getD]

/-- Witness for C1: a concrete marker-free name evaluated on both sides. -/
theorem C1_witness :
    hasSub eicarChars (lowerL "Win.Foo".toList) = false ∧
    should_keep_signature "Win.Foo".toList ["Win".toList] [] =
      claimShouldKeep "Win.Foo".toList ["Win".toList] [] :=
  ⟨by decide, C1_theorem "Win.Foo".toList ["Win".toList] [] (by decide)⟩

/-- Counterexample to C1 as stated: the name "eicar" is empty of any '.'
separator and the include-list is non-empty, so the claimed procedure
drops it, yet the classifier keeps it (the test-marker override comes
first). -/
theorem C1_counterexample :
    ("eicar".toList).contains '.' = false ∧
    (["Win".toList] : List (List Char)).isEmpty = false ∧
    should_keep_signature "eicar".toList [] ["Win".toList] = true ∧
    claimShouldKeep "eicar".toList [] ["Win".toList] = false := by
  decide

/-! Claim C2: retention of test-marker records. -/

/-- C2 (amended): a record whose name contains the test marker
case-insensitively always passes the platform classifier, whatever the
exclude/include policy, and the hdb/hsb/ldb per-line filters therefore
always retain it; in the ndb filter a well-formed such record is
retained iff its type code passes the type filter. -/
theorem C2_theorem :
    (∀ name ex incl, hasSub eicarChars (lowerL name) = true →
       should_keep_signature name ex incl = true) ∧
    (∀ ex incl line,
       hasSub eicarChars (lowerL ((splitAll ':' line).getD 2 [])) = true →
       keepHdb ex incl line = true) ∧
    (∀ ex incl line,
       hasSub eicarChars (lowerL ((splitAll ':' line).getD 2 [])) = true →
       keepHsb ex incl line = true) ∧
    (∀ ex incl line,
       hasSub eicarChars (lowerL ((splitN ';' 1 line).getD 0 [])) = true →
       keepLdb ex incl line = true) ∧
    (∀ ex incl types line, (splitN ':' 3 line).length ≥ 4 →
       hasSub eicarChars (lowerL ((splitN ':' 3 line).getD 0 [])) = true →
       keepNdb ex incl types line =
         typeOk types ((splitN ':' 3 line).getD 1 [])) := by
  refine ⟨fun name ex incl h => should_keep_eicar name ex incl h, ?_, ?_, ?_, ?_⟩
  · intro ex incl line h
    unfold keepHdb
    by_cases hl : (splitAll ':' line).length ≥ 3
    · simp only [hl, if_true]
      exact should_keep_eicar _ ex incl h
    · simp [hl]
  · intro ex incl line h
    unfold keepHsb
    by_cases hl : (splitAll ':' line).length ≥ 3
    · simp only [hl, if_true]
      exact should_keep_eicar _ ex incl h
    · simp [hl]
  · intro ex incl line h
    unfold keepLdb
    by_cases hl : (splitN ';' 1 line).length ≥ 1
    · simp only [hl, if_true]
      exact should_keep_eicar _ ex incl h
    · simp [hl]
  · intro ex incl types line hge h
    unfold keepNdb
    simp only [hge, if_true]
    rw [should_keep_eicar _ ex incl h]
    simp

/-- Witness for C2: each component applied at a concrete marker-bearing
record. -/
theorem C2_witness :
    should_keep_signature "Eicar-Test".toList ["Win".toList] [] = true ∧
    keepHdb ["Win".toList] [] "aa:1:Eicar-Test".toList = true ∧
    keepHsb [] ["Pdf".toList] "aa:1:eicar_test_signature".toList = true ∧
    keepLdb ["Win".toList] [] "Eicar-Test;Engine:51-255;aa".toList = true ∧
    keepNdb ["Win".toList] [] none "Eicar-Test:0:*:aa".toList =
      typeOk none ((splitN ':' 3 "Eicar-Test:0:*:aa".toList).getD 1 []) :=
  ⟨C2_theorem.1 "Eicar-Test".toList ["Win".toList] [] (by decide),
   C2_theorem.2.1 ["Win".toList] [] "aa:1:Eicar-Test".toList (by decide),
   C2_theorem.2.2.1 [] ["Pdf".toList] "aa:1:eicar_test_signature".toList (by decide),
   C2_theorem.2.2.2.1 ["Win".toList] [] "Eicar-Test;Engine:51-255;aa".toList (by decide),
   C2_theorem.2.2.2.2 ["Win".toList] [] none "Eicar-Test:0:*:aa".toList
     (by decide) (by decide)⟩

/-- Counterexample to C2 as stated: a well-formed ndb record named with
the test marker is removed when its type code is not in the allowed-type
set, and the mdb fast path removes marker records wholesale. -/
theorem C2_counterexample :
    hasSub eicarChars
      (lowerL ((splitN ':' 3 "Eicar-Test:9:*:aa".toList).getD 0 [])) = true ∧
    filter_ndb [] [] (some ["0".toList]) ["Eicar-Test:9:*:aa".toList] =
      ⟨[], 1, 0⟩ ∧
    hasSub eicarChars
      (lowerL ((splitAll ':' "aa:1:Eicar-Test".toList).getD 2 [])) = true ∧
    filter_mdb ["Win".toList] [] ["aa:1:Eicar-Test".toList] =
      ⟨[mdbComment], 1, 0⟩ := by
  decide

/-! Claim C4: the mdb fast path against per-line filtering. -/

/-- A stripped line that is a well-formed hash record whose name carries
the platform prefix "Win" and does not contain the test marker. -/
def isWinRec (raw : List Char) : Bool :=
  let parts := splitAll ':' raw
  let nm := parts.getD 2 []
  decide (parts.length ≥ 3) && nm.contains '.' &&
    ((splitAll '.' nm).headD [] == winChars) && !(hasSub eicarChars (lowerL nm))

lemma keepHdb_winRec (ex : List (List Char)) (raw : List Char)
    (hw : ex.contains winChars = true) (hr : isWinRec raw = true) :
    keepHdb ex [] raw = false := by
  unfold isWinRec at hr
  simp only [Bool.and_eq_true, decide_eq_true_eq, beq_iff_eq] at hr
  obtain ⟨⟨⟨hlen, hdot⟩, hpfx⟩, hneg⟩ := hr
  have hei : hasSub eicarChars (lowerL ((splitAll ':' raw).getD 2 [])) = false := by
    cases hx : hasSub eicarChars (lowerL ((splitAll ':' raw).getD 2 [])) with
    | false => rfl
    | true => rw [hx] at hneg; exact absurd hneg (by simp)
  have h2 : hasSub testEicarChars (lowerL ((splitAll ':' raw).getD 2 [])) = false := by
    cases hx : hasSub testEicarChars (lowerL ((splitAll ':' raw).getD 2 [])) with
    | false => rfl
    | true => rw [hasSub_of_testEicar hx] at hei; exact absurd hei (by simp)
  have hnm : ((splitAll ':' raw).getD 2 []).isEmpty = false := by
    cases hc : (splitAll ':' raw).getD 2 [] with
    | nil => rw [hc] at hdot; simp at hdot
    | cons a t => rfl
  have hexne : ex.isEmpty = false := by
    cases ex with
    | nil => simp [List.contains] at hw
    | cons a t => rfl
  simp only [keepHdb, should_keep_signature]
  rw [hei, h2, hnm, hdot, hpfx, hexne, hw]
  simp [hlen]

lemma C4_aux (ex : List (List Char)) (hw : ex.contains winChars = true) :
    ∀ file : List (List Char),
      (∀ raw ∈ file, strip raw = raw ∧
        (raw.isEmpty || startsHash raw || isWinRec raw) = true) →
      (filter_hdb ex [] file).orig = countRaw file ∧
      (filter_hdb ex [] file).kept = 0 ∧
      (filter_hdb ex [] file).out =
        file.filter (fun l => l.isEmpty || startsHash l) := by
  intro file
  induction file with
  | nil => intro _; exact ⟨rfl, rfl, rfl⟩
  | cons raw rest ih =>
    intro h
    obtain ⟨hs, htri⟩ := h raw (List.mem_cons_self raw rest)
    obtain ⟨ho, hk, hout⟩ := ih (fun x hx => h x (List.mem_cons_of_mem raw hx))
    unfold filter_hdb at ho hk hout ⊢
    by_cases hb : (raw.isEmpty || startsHash raw) = true
    · have hb2 : ((strip raw).isEmpty || startsHash (strip raw)) = true := by
        rw [hs]; exact hb
      rw [runFilter_cons_pass _ raw rest hb2]
      have hcount : countRaw (raw :: rest) = countRaw rest := by
        rcases bor_split hb with h1 | h1
        · simp [countRaw, hs, h1]
        · simp [countRaw, h1]
      refine ⟨by simpa [hcount] using ho, by simpa using hk, ?_⟩
      rw [hs, hout, List.filter_cons]
      simp [hb]
    · have hb1 : raw.isEmpty = false := by
        cases hx : raw.isEmpty with
        | false => rfl
        | true => exact absurd (@bor_intro raw.isEmpty (startsHash raw) (Or.inl hx)) hb
      have hb2 : startsHash raw = false := by
        cases hx : startsHash raw with
        | false => rfl
        | true => exact absurd (@bor_intro raw.isEmpty (startsHash raw) (Or.inr hx)) hb
      have hwrec : isWinRec raw = true := by
        rw [hb1, hb2] at htri
        simpa using htri
      have hb3 : ((strip raw).isEmpty || startsHash (strip raw)) = false := by
        rw [hs, hb1, hb2]; rfl
      have hkeep : keepHdb ex [] (strip raw) = false := by
        rw [hs]; exact keepHdb_winRec ex raw hw hwrec
      rw [runFilter_cons_drop _ raw rest hb3 hkeep]
      have hcount : countRaw (raw :: rest) = 1 + countRaw rest := by
        simp [countRaw, hs, hb1, hb2]
      refine ⟨by simp [hcount, ho, Nat.add_comm], by simpa using hk, ?_⟩
      rw [hout, List.filter_cons]
      simp [hb1, hb2]

/-- C4 (amended): on every mdb file whose lines are already
whitespace-trimmed and are each blank, a '#'-comment, or a well-formed
record with platform prefix "Win" and no test marker in its name, the
fast path (exclude set containing "Win", empty include list) adds the
same original/filtered counter increments as the normal per-line filter,
whose output retains exactly the blank and comment lines, while the fast
path writes the single explanatory comment. -/
theorem C4_theorem (ex : List (List Char)) (file : List (List Char))
    (hw : ex.contains winChars = true)
    (hl : ∀ raw ∈ file, strip raw = raw ∧
       (raw.isEmpty || startsHash raw || isWinRec raw) = true) :
    (filter_mdb ex [] file).orig = (filter_hdb ex [] file).orig ∧
    (filter_mdb ex [] file).kept = (filter_hdb ex [] file).kept ∧
    (filter_hdb ex [] file).out =
      file.filter (fun l => l.isEmpty || startsHash l) ∧
    (filter_mdb ex [] file).out = [mdbComment] := by
  obtain ⟨h1, h2, h3⟩ := C4_aux ex hw file hl
  have hwin : winChars ∈ ex := by
    have := hw
    simp only [List.contains] at this
    exact List.elem_iff.mp this
  unfold filter_mdb
  simp [hwin, h1, h2, h3]

/-- Witness for C4 at a concrete all-Windows mdb file. -/
theorem C4_witness :
    (filter_mdb ["Win".toList] []
        ["# h".toList, [], "aa:1:Win.Foo".toList]).orig =
      (filter_hdb ["Win".toList] []
        ["# h".toList, [], "aa:1:Win.Foo".toList]).orig ∧
    (filter_mdb ["Win".toList] []
        ["# h".toList, [], "aa:1:Win.Foo".toList]).kept =
      (filter_hdb ["Win".toList] []
        ["# h".toList, [], "aa:1:Win.Foo".toList]).kept ∧
    (filter_hdb ["Win".toList] []
        ["# h".toList, [], "aa:1:Win.Foo".toList]).out =
      (["# h".toList, [], "aa:1:Win.Foo".toList].filter
        (fun l => l.isEmpty || startsHash l)) ∧
    (filter_mdb ["Win".toList] []
        ["# h".toList, [], "aa:1:Win.Foo".toList]).out = [mdbComment] :=
  C4_theorem ["Win".toList] ["# h".toList, [], "aa:1:Win.Foo".toList]
    (by decide) (by decide)

/-- Counterexample to C4 as stated: an mdb file holding a non-Windows
record; the fast path records filtered += 0 where per-line filtering
records filtered += 1 (and keeps the record). -/
theorem C4_counterexample :
    (["Win".toList] : List (List Char)).contains winChars = true ∧
    (filter_mdb ["Win".toList] [] ["aa:1:Unix.Foo".toList]).kept ≠
      (filter_hdb ["Win".toList] [] ["aa:1:Unix.Foo".toList]).kept := by
  decide

/-! Claim C5: comment and blank lines. -/

/-- C5 (amended): in every per-line filter, a line that is blank or
begins with '#' after stripping is passed through as its stripped text
and adds to neither counter; in the raw-line count used by whole-format
exclusion and the mdb fast path, a line that is blank after stripping or
literally begins with '#' is not counted. -/
theorem C5_theorem :
    (∀ keep : List Char → Bool, ∀ raw rest,
      ((strip raw).isEmpty || startsHash (strip raw)) = true →
      runFilter keep (raw :: rest) =
        ⟨strip raw :: (runFilter keep rest).out,
         (runFilter keep rest).orig, (runFilter keep rest).kept⟩) ∧
    (∀ raw rest, ((strip raw).isEmpty || startsHash raw) = true →
      countRaw (raw :: rest) = countRaw rest) := by
  refine ⟨runFilter_cons_pass, ?_⟩
  intro raw rest h
  rcases bor_split h with h1 | h1
  · simp [countRaw, h1]
  · simp [countRaw, h1]

/-- Witness for C5 at a concrete comment line carrying edge whitespace. -/
theorem C5_witness :
    runFilter (keepHdb [] []) ["  # c ".toList] =
      ⟨strip "  # c ".toList :: (runFilter (keepHdb [] []) []).out,
       (runFilter (keepHdb [] []) []).orig,
       (runFilter (keepHdb [] []) []).kept⟩ ∧
    countRaw ["# c ".toList] = countRaw [] :=
  ⟨C5_theorem.1 (keepHdb [] []) "  # c ".toList [] (by decide),
   C5_theorem.2 "# c ".toList [] (by decide)⟩

/-- Counterexample to C5 as stated: a comment line with trailing
whitespace is rewritten stripped, not verbatim. -/
theorem C5_counterexample :
    startsHash "# c ".toList = true ∧
    (filter_hdb [] [] ["# c ".toList]).out ≠ ["# c ".toList] := by
  decide

/-! Claim C6: malformed records fail open. -/

/-- C6: every per-format keep decision returns true on a line with fewer
than the format's minimum number of fields (4 for ndb, 3 for hdb/hsb/mdb
per-line; an ldb line always has at least its one name field), and the
shared loop writes every kept record back while counting it in both
counters. -/
theorem C6_theorem :
    (∀ ex incl types line, (splitN ':' 3 line).length < 4 →
       keepNdb ex incl types line = true) ∧
    (∀ ex incl line, (splitAll ':' line).length < 3 →
       keepHdb ex incl line = true) ∧
    (∀ ex incl line, (splitAll ':' line).length < 3 →
       keepHsb ex incl line = true) ∧
    (∀ line, 1 ≤ (splitN ';' 1 line).length) ∧
    (∀ keep : List Char → Bool, ∀ raw rest,
       (strip raw).isEmpty = false → startsHash (strip raw) = false →
       keep (strip raw) = true →
       runFilter keep (raw :: rest) =
         ⟨strip raw :: (runFilter keep rest).out,
          (runFilter keep rest).orig + 1, (runFilter keep rest).kept + 1⟩) := by
  refine ⟨?_, ?_, ?_, ?_, ?_⟩
  · intro ex incl types line h
    have h2 : ¬((splitN ':' 3 line).length ≥ 4) := by omega
    simp [keepNdb, h2]
  · intro ex incl line h
    have h2 : ¬((splitAll ':' line).length ≥ 3) := by omega
    simp [keepHdb, h2]
  · intro ex incl line h
    have h2 : ¬((splitAll ':' line).length ≥ 3) := by omega
    simp [keepHsb, h2]
  · intro line
    cases hc : splitN ';' 1 line with
    | nil => exact absurd hc (splitN_ne_nil ';' 1 line)
    | cons a t => simp [hc]
  · intro keep raw rest h1 h2 h3
    exact runFilter_cons_keep keep raw rest (by simp [h1, h2]) h3

/-- Witness for C6 at concrete malformed lines of each format. -/
theorem C6_witness :
    keepNdb ["Win".toList] [] (some []) "a:b:c".toList = true ∧
    keepHdb ["Win".toList] [] "a:b".toList = true ∧
    keepHsb ["Win".toList] [] "ab".toList = true ∧
    1 ≤ (splitN ';' 1 "x".toList).length ∧
    runFilter (keepHdb ["Win".toList] []) ["a:b".toList] =
      ⟨strip "a:b".toList :: (runFilter (keepHdb ["Win".toList] []) []).out,
       (runFilter (keepHdb ["Win".toList] []) []).orig + 1,
       (runFilter (keepHdb ["Win".toList] []) []).kept + 1⟩ :=
  ⟨C6_theorem.1 ["Win".toList] [] (some []) "a:b:c".toList (by decide),
   C6_theorem.2.1 ["Win".toList] [] "a:b".toList (by decide),
   C6_theorem.2.2.1 ["Win".toList] [] "ab".toList (by decide),
   C6_theorem.2.2.2.1 "x".toList,
   C6_theorem.2.2.2.2 (keepHdb ["Win".toList] []) "a:b".toList []
     (by decide) (by decide) (by decide)⟩

/-! Claim C7: idempotence of the per-format filters. -/

/-- C7: filtering is idempotent: re-running any per-line filter over its
own output leaves the output unchanged, the same holds for the mdb
filter including its fast path, and re-reading the written bytes and
filtering again writes back byte-identical content (for files whose
lines hold no newline, as lines read from a text file do). -/
theorem C7_theorem :
    (∀ keep : List Char → Bool, ∀ file,
      (runFilter keep ((runFilter keep file).out)).out =
        (runFilter keep file).out) ∧
    (∀ ex incl file,
      (filter_mdb ex incl ((filter_mdb ex incl file).out)).out =
        (filter_mdb ex incl file).out) ∧
    (∀ keep : List Char → Bool, ∀ file,
      (∀ l ∈ file, l.contains '\n' = false) →
      writeLines ((runFilter keep (readLines (writeLines
          ((runFilter keep file).out)))).out) =
        writeLines ((runFilter keep file).out)) := by
  refine ⟨runFilter_idem, ?_, ?_⟩
  · intro ex incl file
    cases hw : ex.contains winChars with
    | true =>
      have hwin : winChars ∈ ex := by
        have := hw
        simp only [List.contains] at this
        exact List.elem_iff.mp this
      simp [filter_mdb, hw, hwin]
    | false =>
      have hwin : ¬ winChars ∈ ex := by
        intro hmem
        have h2 : ex.contains winChars = true := by
          simp only [List.contains]
          exact List.elem_iff.mpr hmem
        rw [hw] at h2
        exact absurd h2 (by simp)
      simp only [filter_mdb, hw, hwin, if_false, filter_hdb]
      exact runFilter_idem _ file
  · intro keep file h
    rw [readLines_writeLines _ (runFilter_out_no_newline keep file h),
      runFilter_idem]

/-- Witness for C7's byte-level clause at a concrete two-line file. -/
theorem C7_witness :
    writeLines ((runFilter (keepHdb ["Win".toList] []) (readLines (writeLines
        ((runFilter (keepHdb ["Win".toList] [])
          ["aa:1:Unix.Foo".toList, "# c".toList]).out)))).out) =
      writeLines ((runFilter (keepHdb ["Win".toList] [])
        ["aa:1:Unix.Foo".toList, "# c".toList]).out) :=
  C7_theorem.2.2 (keepHdb ["Win".toList] [])
    ["aa:1:Unix.Foo".toList, "# c".toList] (by decide)

/-! Claim C8: mutually exclusive platform lists. -/

/-- C8: whenever the resolved exclude-platform and include-platform
lists are both non-empty, the run resolves to a configuration error:
exit code 1 and every file left untouched. -/
theorem C8_theorem (a : Args) (files : List NamedFile)
    (h1 : truthyList (resolvedEp a) = true)
    (h2 : truthyList (resolvedIp a) = true) :
    mainModel a files = (1, files) := by
  unfold mainModel resolveArgs
  by_cases hfirst : (a.profile.isNone && !truthyStr a.exclude_platforms &&
      !truthyStr a.include_platforms && !truthyStr a.exclude_types) = true
  · simp [hfirst]
  · rw [Bool.not_eq_true] at hfirst
    simp [hfirst, h1, h2]

/-- Witness for C8 at concrete conflicting arguments. -/
theorem C8_witness :
    truthyList (resolvedEp
      ⟨none, some "Win".toList, some "Unix".toList, none, none⟩) = true ∧
    truthyList (resolvedIp
      ⟨none, some "Win".toList, some "Unix".toList, none, none⟩) = true ∧
    mainModel ⟨none, some "Win".toList, some "Unix".toList, none, none⟩
        [("ndb".toList, ["a:b:c:d".toList])] =
      (1, [("ndb".toList, ["a:b:c:d".toList])]) :=
  ⟨by decide, by decide,
   C8_theorem ⟨none, some "Win".toList, some "Unix".toList, none, none⟩
     [("ndb".toList, ["a:b:c:d".toList])] (by decide) (by decide)⟩

/-! Claim C9: ndb keep condition and the type-set semantics. -/

/-- C9: a well-formed ndb record is kept iff the platform classifier
approves its name and its type code passes the type filter, where an
absent type set allows every type and an explicitly empty set allows
none. -/
theorem C9_theorem (ex incl : List (List Char))
    (types : Option (List (List Char))) (line : List Char)
    (h : (splitN ':' 3 line).length ≥ 4) :
    keepNdb ex incl types line =
      (should_keep_signature ((splitN ':' 3 line).getD 0 []) ex incl &&
        typeOk types ((splitN ':' 3 line).getD 1 [])) ∧
    (∀ t, typeOk none t = true) ∧
    (∀ t, typeOk (some []) t = false) := by
  refine ⟨?_, fun t => rfl, fun t => rfl⟩
  simp [keepNdb, h]

/-- Witness for C9 at a concrete well-formed ndb record. -/
theorem C9_witness :
    (splitN ':' 3 "Win.Foo:0:*:aa".toList).length ≥ 4 ∧
    (keepNdb ["Win".toList] [] (some ["0".toList]) "Win.Foo:0:*:aa".toList =
      (should_keep_signature ((splitN ':' 3 "Win.Foo:0:*:aa".toList).getD 0 [])
         ["Win".toList] [] &&
       typeOk (some ["0".toList])
         ((splitN ':' 3 "Win.Foo:0:*:aa".toList).getD 1 [])) ∧
     (∀ t, typeOk none t = true) ∧
     (∀ t, typeOk (some []) t = false)) :=
  ⟨by decide,
   C9_theorem ["Win".toList] [] (some ["0".toList]) "Win.Foo:0:*:aa".toList
     (by decide)⟩

/-! Claim C10: the statistics counters. -/

/-- Per-format counter state, as `self.stats`: format key to
(original, filtered). -/
abbrev Stats := List Char → Nat × Nat

/-- One accumulation step, `self.stats[key]["original"] += dO;
self.stats[key]["filtered"] += dK` (e.g. lines 192-193, 358-359). -/
def bumpStats (s : Stats) (key : List Char) (dO dK : Nat) : Stats :=
  fun k => if k = key then ((s k).1 + dO, (s k).2 + dK) else s k

/-- The invariant: filtered never exceeds original, for every key. -/
def statsInv (s : Stats) : Prop := ∀ k, (s k).2 ≤ (s k).1

/-- C10: every per-line filter, the mdb fast path and whole-format
exclusion add a filtered increment no larger than the original
increment; accumulation only ever increases both counters and preserves
filtered ≤ original for every format key. -/
theorem C10_theorem :
    (∀ keep : List Char → Bool, ∀ file,
      (runFilter keep file).kept ≤ (runFilter keep file).orig) ∧
    (∀ ex incl file,
      (filter_mdb ex incl file).kept ≤ (filter_mdb ex incl file).orig) ∧
    (∀ ext file,
      (exclude_file_type ext file).kept ≤ (exclude_file_type ext file).orig) ∧
    (∀ s key dO dK k, (s k).1 ≤ (bumpStats s key dO dK k).1 ∧
       (s k).2 ≤ (bumpStats s key dO dK k).2) ∧
    (∀ s key dO dK, dK ≤ dO → statsInv s → statsInv (bumpStats s key dO dK)) := by
  have hrun : ∀ (keep : List Char → Bool) (file : List (List Char)),
      (runFilter keep file).kept ≤ (runFilter keep file).orig := by
    intro keep file
    induction file with
    | nil => exact Nat.le_refl 0
    | cons raw rest ih =>
      by_cases hb : ((strip raw).isEmpty || startsHash (strip raw)) = true
      · rw [runFilter_cons_pass _ raw rest hb]
        exact ih
      · rw [Bool.not_eq_true] at hb
        cases hk : keep (strip raw) with
        | true =>
          rw [runFilter_cons_keep _ raw rest hb hk]
          exact Nat.succ_le_succ ih
        | false =>
          rw [runFilter_cons_drop _ raw rest hb hk]
          exact Nat.le_succ_of_le ih
  refine ⟨hrun, ?_, ?_, ?_, ?_⟩
  · intro ex incl file
    cases hw : ex.contains winChars with
    | true =>
      have hwin : winChars ∈ ex := by
        have := hw
        simp only [List.contains] at this
        exact List.elem_iff.mp this
      simp [filter_mdb, hw, hwin]
    | false =>
      simp only [filter_mdb, hw, if_false, filter_hdb]
      exact hrun _ file
  · intro ext file
    exact Nat.zero_le _
  · intro s key dO dK k
    constructor <;> by_cases hk : k = key <;> simp [bumpStats, hk]
  · intro s key dO dK hle hinv k
    by_cases hk : k = key
    · simp only [bumpStats, hk, if_pos rfl]
      exact Nat.add_le_add (hinv key) hle
    · simp only [bumpStats, if_neg hk]
      exact hinv k

/-- Witness for C10 at concrete files and a concrete accumulation step. -/
theorem C10_witness :
    (runFilter (keepHdb [] []) ["a:1:Win.Foo".toList]).kept ≤
      (runFilter (keepHdb [] []) ["a:1:Win.Foo".toList]).orig ∧
    (filter_mdb ["Win".toList] [] ["a:1:Win.Foo".toList]).kept ≤
      (filter_mdb ["Win".toList] [] ["a:1:Win.Foo".toList]).orig ∧
    (exclude_file_type "ndb".toList ["a:1:Win.Foo".toList]).kept ≤
      (exclude_file_type "ndb".toList ["a:1:Win.Foo".toList]).orig ∧
    statsInv (bumpStats (fun _ => (0, 0)) "hdb".toList 2 1) :=
  ⟨C10_theorem.1 (keepHdb [] []) ["a:1:Win.Foo".toList],
   C10_theorem.2.1 ["Win".toList] [] ["a:1:Win.Foo".toList],
   C10_theorem.2.2.1 "ndb".toList ["a:1:Win.Foo".toList],
   C10_theorem.2.2.2.2 (fun _ => (0, 0)) "hdb".toList 2 1 (by omega)
     (fun k => Nat.le_refl 0)⟩

/-! Claim C3: driver dispatch for excluded formats. -/

/-- C3: the driver violates the claim for the extended-signature and
hash-database formats: with "ndb" in the whole-format-exclusion set it
still dispatches an ndb file to the per-line filter (likewise "hdb"),
so a record survives where whole-format exclusion - applied correctly
to mdb, and shown here for comparison - would have replaced the file
content with the single explanatory comment. -/
theorem C3_theorem :
    dispatch ["ndb".toList] "ndb".toList = FileAction.runNdb ∧
    dispatch ["hdb".toList] "hdb".toList = FileAction.runHdb ∧
    dispatch ["mdb".toList] "mdb".toList = FileAction.wholeExclude ∧
    processFiles ⟨none, none, none, some ["ndb".toList]⟩
        [("ndb".toList, ["Win.Foo:0:*:aa".toList])] =
      [("ndb".toList, ["Win.Foo:0:*:aa".toList])] ∧
    (exclude_file_type "ndb".toList ["Win.Foo:0:*:aa".toList]).out =
      ["# NDB signatures excluded entirely".toList] := by
  decide

end ClamJuice
